import Mathlib

/-!
# Verification of the Pyrat Bay line-database search and opacity-grid engine

This file gives a shallow embedding of the core algorithms of the Pyrat Bay
repository and proves properties of them:

* `binsearch` embeds the hybrid binary-then-linear record search
  `dbdriver.binsearch` (`pyratbay/lineread/database/driver.py`).
* `dbread` embeds the bulk record read `repack.dbread`
  (`pyratbay/lineread/database/repack.py`).
* `voplez_dbread` embeds the Plez VO ASCII reader `voplez.dbread`
  (`src_Py/db_voplez.py`).
* `assignedCells`, `runWorker`, `buildGrid` embed the static worker
  partition of the opacity-grid build (`pyratbay/pyrat/extinction.py`).
* `getpf_poly`, `polyTempGrid`, `ctipsTempGrid` embed the partition-function
  sources of `dbdriver.getpf` (`pyratbay/lineread/database/driver.py`).
* `validateOpacity`, `ntempOf`, `tempGrid` embed the pre-build validation
  and temperature-grid construction of `compute_opacity`
  (`pyratbay/pyrat/extinction.py`).

Floating-point scalars of the Python source are modelled by linearly ordered
keys (rationals where concrete numbers are needed, reals where `exp`/`log`
appear); the algorithms only compare and arithmetically combine them.
Python `while` loops are embedded with an explicit fuel argument; the
top-level wrappers supply fuel strictly larger than the number of loop
iterations ever possible for the given index range, so the embedded loop
runs exactly as the source loop does.
-/

/-! ## The hybrid binary-then-linear search (`dbdriver.binsearch`) -/

/-! ## Embedding: the hybrid binary-then-linear search (`dbdriver.binsearch`) -/

/-- Binary-search phase of `dbdriver.binsearch` (driver.py lines 134-145):
narrow `[ilo, ihi]` until `ihi - ilo <= 1`, reading the key `K` at the
midpoint `(ihi + ilo) // 2` each iteration (`if recwave > wave: ihi = irec
else: ilo = irec`).  The first `Nat` argument is loop fuel. -/
def binloop {α : Type} [LinearOrder α] (K : Nat → α) (wave : α) :
    Nat → Nat → Nat → Nat × Nat
  | 0, ilo, ihi => (ilo, ihi)
  | fuel + 1, ilo, ihi =>
    if 1 < ihi - ilo then
      if wave < K ((ihi + ilo) / 2) then binloop K wave fuel ilo ((ihi + ilo) / 2)
      else binloop K wave fuel ((ihi + ilo) / 2) ihi
    else (ilo, ihi)

/-- Linear-refinement phase of `dbdriver.binsearch` (driver.py lines 147-172):
starting from the binary-search landing index, walk up (`searchup = true`,
advance while `K (irec+1) < wave`) or down (`searchup = false`, recede while
`K (irec-1) > wave`), stopping at the `imin`/`imax` boundary.  The first
`Nat` argument after `searchup` is loop fuel. -/
def linloop {α : Type} [LinearOrder α] (K : Nat → α) (wave : α)
    (imin imax : Nat) (searchup : Bool) : Nat → Nat → Nat
  | 0, irec => irec
  | fuel + 1, irec =>
    if irec = imin ∨ irec = imax then irec
    else if searchup then
      if K (irec + 1) < wave then linloop K wave imin imax searchup fuel (irec + 1)
      else irec
    else
      if wave < K (irec - 1) then linloop K wave imin imax searchup fuel (irec - 1)
      else irec

/-- The search `dbdriver.binsearch(dbfile, wave, ilo, ihi, searchup)` (driver.py lines
100-172): binary search on the key function `K` over record indices
`[ilo, ihi]`, then linear refinement from the landing point (`irec = ilo`
when searching up, `irec = ihi` when searching down).  The fuel `ihi + 1`
strictly exceeds the number of iterations either loop can make inside
`[ilo, ihi]`, so the embedding agrees with the unbounded Python loops. -/
def binsearch {α : Type} [LinearOrder α] (K : Nat → α) (wave : α)
    (ilo ihi : Nat) (searchup : Bool) : Nat :=
  linloop K wave ilo ihi searchup (ihi + 1)
    (if searchup then (binloop K wave (ihi + 1) ilo ihi).1
     else (binloop K wave (ihi + 1) ilo ihi).2)

/-- Keys of the ten-record end-to-end scenario: 10, 20, ..., 100 at
indices 0..9 (strictly increasing beyond as well). -/
def exampleKeys : Nat → ℤ := fun i => 10 * i + 10

/-! ## Embedding: the repack bulk reader (`repack.dbread`) -/

/-- A repack binary line-transition file (`repack.py`): record `i` packs
wavenumber `wn i` (the sort key and first field, what `readwave` returns),
lower-state energy `elow i`, oscillator strength `gf i`, and the raw
isotope code `iso i`; `n` is the number of records (`nlines`).  The
float-valued fields are modelled over a linear order `α`.  `isotopes` is
the per-molecule isotope list loaded by `getiso` at construction; the
`np.unique`-and-`index` post-processing of `dbread` (lines 145-151) maps
each raw code to its position in this list (the zero-padding there only
formats the code as its name). -/
structure RepackDb (α : Type) where
  n : Nat
  wn : Nat → α
  elow : Nat → α
  gf : Nat → α
  iso : Nat → Nat
  isotopes : List Nat

/-- Observable outcome of one `repack.dbread` call: the four extracted
arrays in source order (wavenumber, gf, elow, isotope index), or `none`
for the non-overlap early return; whether the non-overlap warning was
issued on the log; and the record counters at which a ten-percent progress
checkpoint fires (`(i % interval) == 0 and i != 0`). -/
structure DbReadResult (α : Type) where
  arrays : Option (List α × List α × List α × List ℤ)
  warned : Bool
  checkpoints : List Nat
deriving DecidableEq

/-- The reader `repack.dbread(iwn, fwn, verb)` (repack.py lines 68-153).  If the
requested window misses the file range (`iwn > DBfwn or fwn < DBiwn`) it
warns and returns no arrays; otherwise it locates the record interval with
two `binsearch` calls (search-down for `iwn` from record 0, search-up for
`fwn` from `istart`) and bulk-reads records `istart..istop` in increasing
index order.  The `verb` argument is accepted and, as in the source,
unused. -/
def dbread {α : Type} [LinearOrder α] (db : RepackDb α) (iwn fwn : α)
    (verb : ℤ) : DbReadResult α :=
  if db.wn (db.n - 1) < iwn ∨ fwn < db.wn 0 then
    { arrays := none, warned := true, checkpoints := [] }
  else
    let istart := binsearch db.wn iwn 0 (db.n - 1) false
    let istop := binsearch db.wn fwn istart (db.n - 1) true
    let nread := istop - istart + 1
    let interval := if (istop - istart) / 10 = 0 then 1 else (istop - istart) / 10
    { arrays := some
        ((List.range nread).map (fun i => db.wn (istart + i)),
         (List.range nread).map (fun i => db.gf (istart + i)),
         (List.range nread).map (fun i => db.elow (istart + i)),
         (List.range nread).map
           (fun i => (db.isotopes.indexOf (db.iso (istart + i)) : ℤ))),
      warned := false,
      checkpoints := (List.range nread).filter (fun i => i % interval == 0 && i != 0) }

/-- The wavenumber array of a `dbread` outcome (empty when no arrays were
returned). -/
def wnsOf {α : Type} (r : DbReadResult α) : List α :=
  match r.arrays with
  | none => []
  | some x => x.1

/-- The ten-record synthetic database of the end-to-end scenario:
wavenumbers 10, 20, ..., 100 cm-1. -/
def tenRecDb : RepackDb ℤ where
  n := 10
  wn := fun i => 10 * i + 10
  elow := fun i => i
  gf := fun _ => 1
  iso := fun _ => 0
  isotopes := [0]

/-! ## Embedding: the Plez VO ASCII reader (`src_Py/db_voplez.py`) -/

/-- Modelled from the spec: `pconstants.py` is not among the sources.  Per
the glossary, wavelength in microns relates to wavenumber in cm-1 by
inversion, so `pc.um` is the micron expressed in cm, `1e-4`. -/
def pc_um : ℚ := 1 / 10000

/-- Modelled from the spec: `pconstants.py` is not among the sources.
`pc.eV` is the positive factor converting `elow` from eV to cm-1; its
exact value does not affect the properties proved here. -/
def pc_eV : ℚ := 8065544 / 1000

/-- A Plez VO ASCII line list (`db_voplez.py`): record `i` carries a
wavenumber `wn i` in cm-1 (columns 33-43), an oscillator strength `gf i`
(columns 21-32) and a lower-state energy `elow i` in eV (columns 44-50);
`n` is the record count.  The file is sorted by increasing wavelength,
hence decreasing wavenumber. -/
structure VoFile where
  n : Nat
  wn : Nat → ℚ
  gf : Nat → ℚ
  elow : Nat → ℚ

/-- The key read `voplez.readwave` (db_voplez.py lines 54-75): read the wavenumber of
record `irec` and return the record sort key, the wavelength in microns
`1.0 / (wave * pc.um)`. -/
def voplez_readwave (f : VoFile) (irec : Nat) : ℚ :=
  1 / (f.wn irec * pc_um)

/-- The reader `voplez.dbread(iwn, fwn, verbose)` (db_voplez.py lines 78-169):
convert the requested wavenumber window to a wavelength window
(`iwl = 1/(fwn um)`, `fwl = 1/(iwn um)`), locate the record interval with
the two `binsearch` calls of the driver base class (`db_driver.py` is not
among the sources; per spec section 4.2 every driver uses the one
BoundedRangeSearch primitive, embedded above as `binsearch`), then read
records from `istop` DOWN to `istart` (`data.seek((istop - i) * recsize)`)
storing them in that order; `elow` is converted from eV to cm-1, and the
isotope array is the allocated `np.zeros(nread)`, never written. -/
def voplez_dbread (f : VoFile) (iwn fwn : ℚ) :
    List ℚ × List ℚ × List ℚ × List ℤ :=
  let iwl := 1 / (fwn * pc_um)
  let fwl := 1 / (iwn * pc_um)
  let istart := binsearch (voplez_readwave f) iwl 0 (f.n - 1) false
  let istop := binsearch (voplez_readwave f) fwl istart (f.n - 1) true
  let nread := istop - istart + 1
  ((List.range nread).map (fun i => f.wn (istop - i)),
   (List.range nread).map (fun i => f.gf (istop - i)),
   (List.range nread).map (fun i => f.elow (istop - i) * pc_eV),
   (List.range nread).map (fun _ => 0))

/-- The five-record Plez VO example file with wavenumbers 100, 99, 98,
97, 96 (strictly decreasing, so wavelength strictly increasing). -/
def voExample : VoFile where
  n := 5
  wn := fun i => 100 - i
  gf := fun _ => 1
  elow := fun _ => 2

/-! ## Embedding: the parallel opacity-grid build (`pyratbay/pyrat/extinction.py`) -/

/-- The worker assignment of `compute_opacity` line 102: `indices = np.arange(ntemp*nlayers) % ncpu`
assigns grid cell `c` to worker `c % ncpu`. -/
def cellWorker (ncpu c : Nat) : Nat := c % ncpu

/-- The cells iterated by worker `i`
(`np.where(indices == i)[0]`, line 106): the cells of
`range(ntemp*nlayers)` whose index is congruent to `i` modulo `ncpu`. -/
def assignedCells (ncpu ntemp nlayers i : Nat) : List Nat :=
  (List.range (ntemp * nlayers)).filter (fun c => cellWorker ncpu c == i)

/-- The temperature index of a grid cell
(`itemp = int(index / atm.nlayers)`, extinction line 165). -/
def itempOf (nlayers c : Nat) : Nat := c / nlayers

/-- The layer index of a grid cell
(`ilayer = index % atm.nlayers`, extinction line 160). -/
def ilayerOf (nlayers c : Nat) : Nat := c % nlayers

/-- The output-table regions written by a worker iterating `cells`: the
`(itemp, ilayer)` slice coordinates of
`ex.etable[:, itemp, ilayer] = extinct_coeff` (extinction line 204). -/
def writeRegions (nlayers : Nat) (cells : List Nat) : List (Nat × Nat) :=
  cells.map (fun c => (itempOf nlayers c, ilayerOf nlayers c))

/-- One write of the shared table (`ex.etable[:, itemp, ilayer] =
extinct_coeff`, extinction line 204): the cell value is the extinction
kernel evaluated at the cell coordinates.

Modelled from the spec: the per-cell kernel `ec.extinction` is a compiled
C extension not among the sources; per spec sections 4.5 and 8 it is a
deterministic function of the cell's (temperature, layer) coordinates and
of read-only inputs, abstracted here as `f`. -/
def applyCell {β : Type} (f : Nat → Nat → β) (nlayers : Nat)
    (T : Nat → Nat → β) (c : Nat) : Nat → Nat → β :=
  fun t l => if t = itempOf nlayers c ∧ l = ilayerOf nlayers c
    then f (itempOf nlayers c) (ilayerOf nlayers c) else T t l

/-- The cell loop of `extinction(pyrat, indices, grid=True)` (extinction
lines 159-204): the worker walks its assigned cells in index order and
writes each cell's spectrum into the shared table. -/
def runWorker {β : Type} (f : Nat → Nat → β) (nlayers : Nat)
    (T : Nat → Nat → β) (cells : List Nat) : Nat → Nat → β :=
  cells.foldl (applyCell f nlayers) T

/-- The parallel phase of `compute_opacity` (extinction lines 100-111):
starting from the zero-initialized shared table `T0`, the `ncpu` workers
fill their assigned cells.  The workers write disjoint regions, so the
outcome of any interleaving equals this canonical sequential order. -/
def buildGrid {β : Type} (f : Nat → Nat → β) (ntemp nlayers ncpu : Nat)
    (T0 : Nat → Nat → β) : Nat → Nat → β :=
  (List.range ncpu).foldl
    (fun T i => runWorker f nlayers T (assignedCells ncpu ntemp nlayers i)) T0

/-! ## Embedding: partition-function sources (`dbdriver.getpf`) -/

/-- The sampling `np.arange(start, stop, step)` for positive step: the values
`start + step * i` for `i < ⌈(stop - start) / step⌉`. -/
def arange (start stop step : ℚ) : List ℚ :=
  (List.range (Nat.ceil ((stop - start) / step))).map
    (fun i : Nat => start + step * (i : ℚ))

/-- The temperature sampling of the polynomial partition-function source:
`Temp = np.arange(1000.0, 7001.0, 50.0)` (driver.py line 55). -/
def polyTempGrid : List ℚ := arange 1000 7001 50

/-- The temperature sampling of the built-in (CTIPS) physics source:
`temp = np.arange(70.0, 3000.1, 10.0)` (driver.py line 40). -/
def ctipsTempGrid : List ℚ := arange 70 3000.1 10

/-- The polynomial partition-function evaluation of `dbdriver.getpf`
(driver.py lines 64-75): `log(PF)` as the explicit degree-five polynomial
in `log(Temp)` written in the source (Irwin 1981, equation 2), then
exponentiated (`PF = np.exp(PF)`). -/
noncomputable def getpf_poly (c : Fin 6 → ℝ) (T : ℝ) : ℝ :=
  Real.exp (c 0 + c 1 * Real.log T + c 2 * Real.log T ^ 2 +
    c 3 * Real.log T ^ 3 + c 4 * Real.log T ^ 4 + c 5 * Real.log T ^ 5)

/-! ## Embedding: opacity-table validation and temperature grid (`compute_opacity`) -/

/-- The configuration consulted by `compute_opacity` (extinction.py lines
19-52): the output opacity files `ex.extfile`, the temperature bounds and
step `ex.tmin`, `ex.tmax`, `ex.tstep`, and the input TLI files
`pyrat.inputs.tlifile`; each may be unset (`None`). -/
structure ExConfig where
  extfile : Option (List String)
  tmin : Option ℚ
  tmax : Option ℚ
  tstep : Option ℚ
  tlifile : Option (List String)

/-- The fatal errors `compute_opacity` can raise through `log.error`
before allocating the grid, in source order; the out-of-range errors
carry the offending value and the available bound reported by the
message. -/
inductive OpacityError where
  | undefinedExtfile
  | multipleExtfile
  | undefinedTmin
  | undefinedTmax
  | undefinedTstep
  | undefinedTlifile
  | tminBelow (requested available : ℚ)
  | tmaxAbove (requested available : ℚ)
deriving DecidableEq

/-- The validation phase of `compute_opacity` (extinction.py lines 19-68),
with the checks in source order: undefined extfile, more than one extfile,
undefined tmin / tmax / tstep / tlifile, then the temperature-coverage
checks `ex.tmin < pyrat.lbl.tmin` and `ex.tmax > pyrat.lbl.tmax` (each
`log.error` raises, aborting the call).  On success it hands the bounds
and step to the grid construction. -/
def validateOpacity (cfg : ExConfig) (lblTmin lblTmax : ℚ) :
    Except OpacityError (ℚ × ℚ × ℚ) :=
  match cfg.extfile with
  | none => .error .undefinedExtfile
  | some ef =>
    if 1 < ef.length then .error .multipleExtfile
    else match cfg.tmin with
    | none => .error .undefinedTmin
    | some tmin =>
      match cfg.tmax with
      | none => .error .undefinedTmax
      | some tmax =>
        match cfg.tstep with
        | none => .error .undefinedTstep
        | some tstep =>
          match cfg.tlifile with
          | none => .error .undefinedTlifile
          | some _ =>
            if tmin < lblTmin then .error (.tminBelow tmin lblTmin)
            else if lblTmax < tmax then .error (.tmaxAbove tmax lblTmax)
            else .ok (tmin, tmax, tstep)

/-- Whether an `Except` outcome is a success. -/
def okB {ε σ : Type} : Except ε σ → Bool
  | .ok _ => true
  | .error _ => false

/-- The Python `int()` conversion of a rational: truncation toward
zero. -/
def pyInt (q : ℚ) : ℤ := if q < 0 then -(Int.floor (-q)) else Int.floor q

/-- The grid size `ex.ntemp = int((ex.tmax - ex.tmin)/ex.tstep) + 1` (extinction.py line
71), clamped to a natural array length. -/
def ntempOf (tmin tmax tstep : ℚ) : Nat :=
  (pyInt ((tmax - tmin) / tstep) + 1).toNat

/-- The grid `ex.temp = np.linspace(ex.tmin, ex.tmin + (ex.ntemp-1)*ex.tstep,
ex.ntemp)` (extinction.py line 72): the `ntemp` evenly spaced values
`tmin + i * tstep`. -/
def tempGrid (tmin tstep : ℚ) (ntemp : Nat) : List ℚ :=
  (List.range ntemp).map (fun i : Nat => tmin + (i : ℚ) * tstep)

/-- The function `compute_opacity` up to the temperature grid: validation first, the
grid only on success (the fatal errors abort before any allocation). -/
def compute_opacity (cfg : ExConfig) (lblTmin lblTmax : ℚ) :
    Except OpacityError (List ℚ) :=
  match validateOpacity cfg lblTmin lblTmax with
  | .error e => .error e
  | .ok (tmin, tmax, tstep) => .ok (tempGrid tmin tstep (ntempOf tmin tmax tstep))

/-! ## Properties of the hybrid search, and claim C1 -/

/-- Invariant of the binary phase: the final window `(l, h)` sits inside the
initial one, has width one, its low end has key at most `wave` unless it
never moved, and its high end has key above `wave` unless it never moved. -/
theorem binloop_inv {α : Type} [LinearOrder α] (K : Nat → α) (w : α) :
    ∀ fuel ilo ihi, ilo < ihi → ihi - ilo ≤ fuel + 1 →
      ilo ≤ (binloop K w fuel ilo ihi).1 ∧
      (binloop K w fuel ilo ihi).2 ≤ ihi ∧
      (binloop K w fuel ilo ihi).2 = (binloop K w fuel ilo ihi).1 + 1 ∧
      (K (binloop K w fuel ilo ihi).1 ≤ w ∨ (binloop K w fuel ilo ihi).1 = ilo) ∧
      (w < K (binloop K w fuel ilo ihi).2 ∨ (binloop K w fuel ilo ihi).2 = ihi) := by
  intro fuel
  induction fuel with
  | zero =>
    intro ilo ihi h1 h2
    simp only [binloop]
    exact ⟨le_refl _, le_refl _, by omega, Or.inr trivial, Or.inr trivial⟩
  | succ n ih =>
    intro ilo ihi h1 h2
    simp only [binloop]
    by_cases hgt : 1 < ihi - ilo
    · rw [if_pos hgt]
      by_cases hw : w < K ((ihi + ilo) / 2)
      · rw [if_pos hw]
        have h := ih ilo ((ihi + ilo) / 2) (by omega) (by omega)
        refine ⟨h.1, le_trans h.2.1 (by omega), h.2.2.1, h.2.2.2.1, ?_⟩
        rcases h.2.2.2.2 with h5 | h5
        · exact Or.inl h5
        · exact Or.inl (by rw [h5]; exact hw)
      · rw [if_neg hw]
        have h := ih ((ihi + ilo) / 2) ihi (by omega) (by omega)
        refine ⟨le_trans (by omega) h.1, h.2.1, h.2.2.1, ?_, h.2.2.2.2⟩
        rcases h.2.2.2.1 with h4 | h4
        · exact Or.inl h4
        · exact Or.inl (by rw [h4]; exact le_of_not_lt hw)
    · rw [if_neg hgt]
      exact ⟨le_refl _, le_refl _, by omega, Or.inr rfl, Or.inr rfl⟩

/-- The linear phase does not move an index that starts on a boundary. -/
theorem linloop_boundary {α : Type} [LinearOrder α] (K : Nat → α) (w : α)
    (imin imax : Nat) (up : Bool) (fuel irec : Nat)
    (h : irec = imin ∨ irec = imax) :
    linloop K w imin imax up fuel irec = irec := by
  cases fuel with
  | zero => rfl
  | succ n => simp only [linloop]; rw [if_pos h]

/-- The upward linear walk stops immediately when the next key reaches
`wave`. -/
theorem linloop_up_stop {α : Type} [LinearOrder α] (K : Nat → α) (w : α)
    (imin imax : Nat) (fuel irec : Nat) (hfuel : 0 < fuel)
    (hb : ¬(irec = imin ∨ irec = imax)) (hk : ¬K (irec + 1) < w) :
    linloop K w imin imax true fuel irec = irec := by
  cases fuel with
  | zero => omega
  | succ n =>
    simp only [linloop]
    rw [if_neg hb, if_pos trivial, if_neg hk]

/-- The downward linear walk stops immediately when the previous key is not
above `wave`. -/
theorem linloop_down_stop {α : Type} [LinearOrder α] (K : Nat → α) (w : α)
    (imin imax : Nat) (fuel irec : Nat) (hfuel : 0 < fuel)
    (hb : ¬(irec = imin ∨ irec = imax)) (hk : ¬w < K (irec - 1)) :
    linloop K w imin imax false fuel irec = irec := by
  cases fuel with
  | zero => omega
  | succ n =>
    simp only [linloop]
    rw [if_neg hb]
    simp only [Bool.false_eq_true, if_false]
    rw [if_neg hk]

/-- The linear phase stays inside the requested boundaries. -/
theorem linloop_bounds {α : Type} [LinearOrder α] (K : Nat → α) (w : α)
    (imin imax : Nat) (up : Bool) :
    ∀ fuel irec, imin ≤ irec → irec ≤ imax →
      imin ≤ linloop K w imin imax up fuel irec ∧
      linloop K w imin imax up fuel irec ≤ imax := by
  intro fuel
  induction fuel with
  | zero => intro irec h1 h2; exact ⟨h1, h2⟩
  | succ n ih =>
    intro irec h1 h2
    simp only [linloop]
    by_cases hb : irec = imin ∨ irec = imax
    · rw [if_pos hb]; exact ⟨h1, h2⟩
    · rw [if_neg hb]
      cases up with
      | true =>
        rw [if_pos rfl]
        by_cases hk : K (irec + 1) < w
        · rw [if_pos hk]; exact ih (irec + 1) (by omega) (by omega)
        · rw [if_neg hk]; exact ⟨h1, h2⟩
      | false =>
        simp only [Bool.false_eq_true, if_false]
        by_cases hk : w < K (irec - 1)
        · rw [if_pos hk]; exact ih (irec - 1) (by omega) (by omega)
        · rw [if_neg hk]; exact ⟨h1, h2⟩

/-- Every index the upward walk returns has key at most `wave`, provided the
start does. -/
theorem linloop_up_le {α : Type} [LinearOrder α] (K : Nat → α) (w : α)
    (imin imax : Nat) :
    ∀ fuel irec, K irec ≤ w →
      K (linloop K w imin imax true fuel irec) ≤ w := by
  intro fuel
  induction fuel with
  | zero => intro irec h; exact h
  | succ n ih =>
    intro irec h
    simp only [linloop]
    by_cases hb : irec = imin ∨ irec = imax
    · rw [if_pos hb]; exact h
    · rw [if_neg hb, if_pos trivial]
      by_cases hk : K (irec + 1) < w
      · rw [if_pos hk]; exact ih (irec + 1) (le_of_lt hk)
      · rw [if_neg hk]; exact h

/-- Every index the downward walk returns has key above `wave`, provided the
start does. -/
theorem linloop_down_gt {α : Type} [LinearOrder α] (K : Nat → α) (w : α)
    (imin imax : Nat) :
    ∀ fuel irec, w < K irec →
      w < K (linloop K w imin imax false fuel irec) := by
  intro fuel
  induction fuel with
  | zero => intro irec h; exact h
  | succ n ih =>
    intro irec h
    simp only [linloop]
    by_cases hb : irec = imin ∨ irec = imax
    · rw [if_pos hb]; exact h
    · rw [if_neg hb]
      simp only [Bool.false_eq_true, if_false]
      by_cases hk : w < K (irec - 1)
      · rw [if_pos hk]; exact ih (irec - 1) hk
      · rw [if_neg hk]; exact h

/-- The downward walk never moves up. -/
theorem linloop_down_le {α : Type} [LinearOrder α] (K : Nat → α) (w : α)
    (imin imax : Nat) :
    ∀ fuel irec, linloop K w imin imax false fuel irec ≤ irec := by
  intro fuel
  induction fuel with
  | zero => intro irec; exact le_refl _
  | succ n ih =>
    intro irec
    simp only [linloop]
    by_cases hb : irec = imin ∨ irec = imax
    · rw [if_pos hb]
    · rw [if_neg hb]
      simp only [Bool.false_eq_true, if_false]
      by_cases hk : w < K (irec - 1)
      · rw [if_pos hk]; exact le_trans (ih (irec - 1)) (by omega)
      · rw [if_neg hk]

/-- The search result always lies inside the requested index range. -/
theorem binsearch_bounds {α : Type} [LinearOrder α] (K : Nat → α) (w : α)
    (ilo ihi : Nat) (up : Bool) (h : ilo ≤ ihi) :
    ilo ≤ binsearch K w ilo ihi up ∧ binsearch K w ilo ihi up ≤ ihi := by
  unfold binsearch
  rcases eq_or_lt_of_le h with heq | hlt
  · subst heq
    have hbl : binloop K w (ilo + 1) ilo ilo = (ilo, ilo) := by
      simp only [binloop]
      rw [if_neg (by omega)]
    rw [hbl]
    have hsel : (if up then ((ilo, ilo) : Nat × Nat).1
        else ((ilo, ilo) : Nat × Nat).2) = ilo := by
      cases up <;> rfl
    rw [hsel]
    exact linloop_bounds K w ilo ilo up (ilo + 1) ilo (le_refl _) (le_refl _)
  · obtain ⟨ha, hb2, hc, -, -⟩ := binloop_inv K w (ihi + 1) ilo ihi hlt (by omega)
    cases up with
    | true =>
      simp only [if_pos trivial]
      exact linloop_bounds K w ilo ihi true (ihi + 1) _ ha (by omega)
    | false =>
      simp only [Bool.false_eq_true, if_false]
      exact linloop_bounds K w ilo ihi false (ihi + 1) _ (by omega) hb2

/-- When `[imin, imax]` straddles the target (`K imin ≤ w < K imax`), the
binary phase lands on an adjacent pair `(l, l+1)` with `K l ≤ w < K (l+1)`,
the upward refinement returns `l` and the downward refinement returns
`l + 1`. -/
theorem binsearch_straddle {α : Type} [LinearOrder α] (K : Nat → α) (w : α)
    (imin imax : Nat) (hlt : imin < imax) (hlo : K imin ≤ w) (hhi : w < K imax) :
    ∃ l, imin ≤ l ∧ l < imax ∧ K l ≤ w ∧ w < K (l + 1) ∧
      binsearch K w imin imax true = l ∧
      binsearch K w imin imax false = l + 1 := by
  obtain ⟨ha, hb, hc, hd, he⟩ := binloop_inv K w (imax + 1) imin imax hlt (by omega)
  set p := binloop K w (imax + 1) imin imax with hp
  have hKl : K p.1 ≤ w := by
    rcases hd with h | h
    · exact h
    · rw [h]; exact hlo
  have hKh : w < K p.2 := by
    rcases he with h | h
    · exact h
    · rw [h]; exact hhi
  have hl1 : w < K (p.1 + 1) := by rw [← hc]; exact hKh
  refine ⟨p.1, ha, by omega, hKl, hl1, ?_, ?_⟩
  · show linloop K w imin imax true (imax + 1) p.1 = p.1
    by_cases hbnd : p.1 = imin ∨ p.1 = imax
    · exact linloop_boundary K w imin imax true (imax + 1) p.1 hbnd
    · exact linloop_up_stop K w imin imax (imax + 1) p.1 (by omega) hbnd
        (not_lt.mpr (le_of_lt hl1))
  · show linloop K w imin imax false (imax + 1) p.2 = p.1 + 1
    rw [← hc]
    by_cases hbnd : p.2 = imin ∨ p.2 = imax
    · exact linloop_boundary K w imin imax false (imax + 1) p.2 hbnd
    · refine linloop_down_stop K w imin imax (imax + 1) p.2 (by omega) hbnd ?_
      have : p.2 - 1 = p.1 := by omega
      rw [this]
      exact not_lt.mpr hKl

/-- In search-up mode the returned key never exceeds the target, provided
the key at `imin` does not. -/
theorem binsearch_up_le {α : Type} [LinearOrder α] (K : Nat → α) (w : α)
    (imin imax : Nat) (h : imin ≤ imax) (hlo : K imin ≤ w) :
    K (binsearch K w imin imax true) ≤ w := by
  unfold binsearch
  simp only [if_pos trivial]
  rcases eq_or_lt_of_le h with heq | hlt
  · subst heq
    have hbl : binloop K w (imin + 1) imin imin = (imin, imin) := by
      simp only [binloop]
      rw [if_neg (by omega)]
    rw [hbl]
    exact linloop_up_le K w imin imin (imin + 1) imin hlo
  · obtain ⟨-, -, -, hd, -⟩ := binloop_inv K w (imax + 1) imin imax hlt (by omega)
    refine linloop_up_le K w imin imax (imax + 1) _ ?_
    rcases hd with h1 | h1
    · exact h1
    · rw [h1]; exact hlo

/-- In search-down mode the returned key is always above the target,
provided the key at `imax` is. -/
theorem binsearch_down_gt {α : Type} [LinearOrder α] (K : Nat → α) (w : α)
    (imin imax : Nat) (h : imin ≤ imax) (hhi : w < K imax) :
    w < K (binsearch K w imin imax false) := by
  unfold binsearch
  simp only [Bool.false_eq_true, if_false]
  rcases eq_or_lt_of_le h with heq | hlt
  · subst heq
    have hbl : binloop K w (imin + 1) imin imin = (imin, imin) := by
      simp only [binloop]
      rw [if_neg (by omega)]
    rw [hbl]
    exact linloop_down_gt K w imin imin (imin + 1) imin hhi
  · obtain ⟨-, -, -, -, he⟩ := binloop_inv K w (imax + 1) imin imax hlt (by omega)
    refine linloop_down_gt K w imin imax (imax + 1) _ ?_
    rcases he with h1 | h1
    · exact h1
    · rw [h1]; exact hhi

/-- Minimality of the search-down result: for strictly increasing keys it
never lands above an index whose key is already above the target, provided
the key at `imin` is not. -/
theorem binsearch_down_min {α : Type} [LinearOrder α] (K : Nat → α) (w : α)
    (imin imax : Nat) (hlt : imin < imax)
    (hmono : ∀ i j, i < j → j ≤ imax → K i < K j)
    (hlo : K imin ≤ w) (j : Nat) (hKj : w < K j) :
    binsearch K w imin imax false ≤ j := by
  unfold binsearch
  simp only [Bool.false_eq_true, if_false]
  obtain ⟨ha, hb, hc, hd, -⟩ := binloop_inv K w (imax + 1) imin imax hlt (by omega)
  set p := binloop K w (imax + 1) imin imax with hp
  have hKl : K p.1 ≤ w := by
    rcases hd with h | h
    · exact h
    · rw [h]; exact hlo
  have hlj : p.1 < j := by
    by_contra hcon
    push_neg at hcon
    rcases eq_or_lt_of_le hcon with h1 | h1
    · rw [h1] at hKj
      exact absurd hKj (not_lt.mpr hKl)
    · exact absurd hKj
        (not_lt.mpr (le_of_lt (lt_of_lt_of_le (hmono j p.1 h1 (by omega)) hKl)))
  exact le_trans (linloop_down_le K w imin imax (imax + 1) p.2) (by omega)

/-- When every key of a strictly increasing range lies above the target and
the range has width at least two, search-down clamps to `imin`. -/
theorem binsearch_down_clamp {α : Type} [LinearOrder α] (K : Nat → α) (w : α)
    (imin imax : Nat) (hwide : imin + 2 ≤ imax)
    (hmono : ∀ i j, i < j → j ≤ imax → K i < K j)
    (hhi : w < K imin) :
    binsearch K w imin imax false = imin := by
  unfold binsearch
  simp only [Bool.false_eq_true, if_false]
  obtain ⟨ha, hb, hc, hd, -⟩ := binloop_inv K w (imax + 1) imin imax (by omega) (by omega)
  set p := binloop K w (imax + 1) imin imax with hp
  have hl : p.1 = imin := by
    rcases hd with h | h
    · by_contra hcon
      have h1 : imin < p.1 := by omega
      exact absurd (lt_of_lt_of_le (lt_trans hhi (hmono imin p.1 h1 (by omega))) h)
        (lt_irrefl w)
    · exact h
  have h2 : p.2 = imin + 1 := by omega
  rw [h2]
  show linloop K w imin imax false (imax + 1) (imin + 1) = imin
  simp only [linloop]
  rw [if_neg (by omega)]
  simp only [Bool.false_eq_true, if_false]
  rw [Nat.add_sub_cancel, if_pos hhi]
  exact linloop_boundary K w imin imax false imax imin (Or.inl rfl)

/-- Claim C1 (amended).  For keys strictly increasing on `[imin, imax]`
and a target `v` with `K imin ≤ v < K imax`, the hybrid binary-then-linear
search returns in search-UP mode (`searchup = True`) the unique index `l`
with `K l ≤ v < K (l+1)`, and in search-DOWN mode (`searchup = False`) the
symmetric upper boundary `l + 1`, the first index with key above `v`
(the modes are the reverse of the claim as stated); for every target and
either mode the returned index lies within the requested
`[indexMin, indexMax]` bounds. -/
theorem binsearch_mode_boundaries {α : Type} [LinearOrder α] (K : Nat → α)
    (v : α) (imin imax : Nat) (hlt : imin < imax)
    (hmono : ∀ i j, i < j → j ≤ imax → K i < K j)
    (hlo : K imin ≤ v) (hhi : v < K imax) :
    (∃ l, imin ≤ l ∧ l < imax ∧ K l ≤ v ∧ v < K (l + 1) ∧
      binsearch K v imin imax true = l ∧
      binsearch K v imin imax false = l + 1) ∧
    (∀ l m, K l ≤ v → v < K (l + 1) → K m ≤ v → v < K (m + 1) →
      l ≤ imax → m ≤ imax → l = m) ∧
    (∀ w : α, ∀ up : Bool, imin ≤ binsearch K w imin imax up ∧
      binsearch K w imin imax up ≤ imax) := by
  refine ⟨binsearch_straddle K v imin imax hlt hlo hhi, ?_, ?_⟩
  · intro l m hl1 hl2 hm1 hm2 hlmax hmmax
    by_contra hne
    rcases Nat.lt_or_ge l m with h | h
    · have h1 : K (l + 1) ≤ K m := by
        rcases eq_or_lt_of_le (Nat.succ_le_of_lt h) with he | hlt2
        · exact le_of_eq (congrArg K he)
        · exact le_of_lt (hmono (l + 1) m hlt2 hmmax)
      exact absurd (lt_of_lt_of_le hl2 (le_trans h1 hm1)) (lt_irrefl v)
    · have h2 : m < l := by omega
      have h1 : K (m + 1) ≤ K l := by
        rcases eq_or_lt_of_le (Nat.succ_le_of_lt h2) with he | hlt2
        · exact le_of_eq (congrArg K he)
        · exact le_of_lt (hmono (m + 1) l hlt2 hlmax)
      exact absurd (lt_of_lt_of_le hm2 (le_trans h1 hl1)) (lt_irrefl v)
  · intro w up
    exact binsearch_bounds K w imin imax up (le_of_lt hlt)

/-- Claim C1 witness: the amended statement on keys 10..100 with
target 35. -/
theorem binsearch_mode_boundaries_witness :
    (∃ l, 0 ≤ l ∧ l < 9 ∧ exampleKeys l ≤ 35 ∧ (35:ℤ) < exampleKeys (l + 1) ∧
      binsearch exampleKeys 35 0 9 true = l ∧
      binsearch exampleKeys 35 0 9 false = l + 1) ∧
    (∀ l m, exampleKeys l ≤ 35 → (35:ℤ) < exampleKeys (l + 1) →
      exampleKeys m ≤ 35 → (35:ℤ) < exampleKeys (m + 1) →
      l ≤ 9 → m ≤ 9 → l = m) ∧
    (∀ w : ℤ, ∀ up : Bool, 0 ≤ binsearch exampleKeys w 0 9 up ∧
      binsearch exampleKeys w 0 9 up ≤ 9) :=
  binsearch_mode_boundaries exampleKeys 35 0 9 (by decide)
    (fun i j hij hj => by simp only [exampleKeys]; omega)
    (by decide) (by decide)

/-- Claim C1 counterexample to the claim as stated: on the strictly
increasing keys 10, 20, ..., 100 with target 35, search-DOWN mode returns
index 3, whose key 40 violates `K 3 ≤ 35 < K 4`; the index the claim
describes (2, with `K 2 = 30 ≤ 35 < 40 = K 3`) is returned by search-UP
mode instead. -/
theorem binsearch_searchdown_counterexample :
    binsearch exampleKeys 35 0 9 false = 3 ∧
    ¬(exampleKeys 3 ≤ 35 ∧ (35:ℤ) < exampleKeys 4) ∧
    binsearch exampleKeys 35 0 9 true = 2 ∧
    exampleKeys 2 ≤ 35 ∧ (35:ℤ) < exampleKeys 3 := by decide

/-! ## Properties of the repack reader: claims C2, C5 and C8 -/

/-- On an overlapping window, the wavenumber array read by `dbread` is the
keys of records `istart..istop` in increasing index order. -/
theorem dbread_wns_of_overlap {α : Type} [LinearOrder α] (db : RepackDb α)
    (a b : α) (verb : ℤ)
    (h : ¬(db.wn (db.n - 1) < a ∨ b < db.wn 0)) :
    wnsOf (dbread db a b verb) =
      (List.range (binsearch db.wn b (binsearch db.wn a 0 (db.n - 1) false)
          (db.n - 1) true - binsearch db.wn a 0 (db.n - 1) false + 1)).map
        (fun i => db.wn (binsearch db.wn a 0 (db.n - 1) false + i)) := by
  simp only [dbread, wnsOf]
  rw [if_neg h]

/-- Claim C2 (amended).  For a database file sorted strictly ascending by
wavenumber with at least three records and a query window `[a, b]` that
overlaps the file range and strictly contains at least one record key on
its left side (some record with `a < wn ≤ b`), `dbread` returns arrays,
the wavenumber array is non-empty, and every returned wavenumber lies in
`[a, b]`; moreover, on the ten-record database 10,20,...,100 cm-1 with
window `[35, 65]`, the located interval reads exactly the records with
wavenumbers 40, 50 and 60. -/
theorem dbread_window_records {α : Type} [LinearOrder α] (db : RepackDb α)
    (a b : α) (verb : ℤ) (hn : 3 ≤ db.n)
    (hmono : ∀ i j, i < j → j ≤ db.n - 1 → db.wn i < db.wn j)
    (hov1 : a ≤ db.wn (db.n - 1)) (hov2 : db.wn 0 ≤ b)
    (hwit : ∃ i, i ≤ db.n - 1 ∧ a < db.wn i ∧ db.wn i ≤ b) :
    (dbread db a b verb).warned = false ∧
    wnsOf (dbread db a b verb) ≠ [] ∧
    (∀ x ∈ wnsOf (dbread db a b verb), a ≤ x ∧ x ≤ b) ∧
    wnsOf (dbread tenRecDb 35 65 0) = [40, 50, 60] := by
  obtain ⟨iw, hiw, haw, hwb⟩ := hwit
  have hmle : ∀ i j, i ≤ j → j ≤ db.n - 1 → db.wn i ≤ db.wn j := by
    intro i j hij hj
    rcases eq_or_lt_of_le hij with he | hlt
    · exact le_of_eq (congrArg db.wn he)
    · exact le_of_lt (hmono i j hlt hj)
  have hcond : ¬(db.wn (db.n - 1) < a ∨ b < db.wn 0) := by
    push_neg
    exact ⟨hov1, hov2⟩
  have hwarn : (dbread db a b verb).warned = false := by
    simp only [dbread]
    rw [if_neg hcond]
  have hs := binsearch_bounds db.wn a 0 (db.n - 1) false (Nat.zero_le _)
  have ht := binsearch_bounds db.wn b (binsearch db.wn a 0 (db.n - 1) false)
    (db.n - 1) true hs.2
  set istart := binsearch db.wn a 0 (db.n - 1) false with hista
  set istop := binsearch db.wn b istart (db.n - 1) true with histo
  have hstart_gt : a < db.wn istart :=
    binsearch_down_gt db.wn a 0 (db.n - 1) (Nat.zero_le _)
      (lt_of_lt_of_le haw (hmle iw (db.n - 1) hiw (le_refl _)))
  have hstart_le_iw : istart ≤ iw := by
    by_cases hK0 : db.wn 0 ≤ a
    · exact binsearch_down_min db.wn a 0 (db.n - 1) (by omega) hmono hK0 iw haw
    · push_neg at hK0
      rw [hista, binsearch_down_clamp db.wn a 0 (db.n - 1) (by omega) hmono hK0]
      exact Nat.zero_le iw
  have hKstart_le_b : db.wn istart ≤ b :=
    le_trans (hmle istart iw hstart_le_iw hiw) hwb
  have hstop_le : db.wn istop ≤ b :=
    binsearch_up_le db.wn b istart (db.n - 1) hs.2 hKstart_le_b
  have hwns := dbread_wns_of_overlap db a b verb hcond
  rw [← hista, ← histo] at hwns
  refine ⟨hwarn, ?_, ?_, ?_⟩
  · rw [hwns]
    intro hcontra
    have := congrArg List.length hcontra
    simp only [List.length_map, List.length_range, List.length_nil] at this
    omega
  · intro x hx
    rw [hwns] at hx
    simp only [List.mem_map, List.mem_range] at hx
    obtain ⟨k, hk, rfl⟩ := hx
    have hk1 : istart + k ≤ istop := by omega
    have hk2 : istart + k ≤ db.n - 1 := le_trans hk1 ht.2
    constructor
    · exact le_of_lt (lt_of_lt_of_le hstart_gt
        (hmle istart (istart + k) (Nat.le_add_right _ _) hk2))
    · exact le_trans (hmle (istart + k) istop hk1 ht.2) hstop_le
  · decide

/-- Claim C2 witness: the amended statement instantiated on the ten-record
scenario database with window `[35, 65]`. -/
theorem dbread_window_records_witness :
    (dbread tenRecDb 35 65 0).warned = false ∧
    wnsOf (dbread tenRecDb 35 65 0) ≠ [] ∧
    (∀ x ∈ wnsOf (dbread tenRecDb 35 65 0), 35 ≤ x ∧ x ≤ 65) ∧
    wnsOf (dbread tenRecDb 35 65 0) = [40, 50, 60] :=
  dbread_window_records tenRecDb 35 65 0 (by decide)
    (fun i j hij hj => by simp only [tenRecDb]; omega)
    (by decide) (by decide)
    ⟨3, by decide⟩

/-- Claim C2 counterexample to the claim as stated: the window `[11, 19]`
overlaps the ten-record file range `[10, 100]` but contains no record, and
`dbread` returns the single out-of-window record 20, so not every returned
wavenumber lies inside the requested window. -/
theorem dbread_window_counterexample :
    ¬(tenRecDb.wn (tenRecDb.n - 1) < 11 ∨ (19:ℤ) < tenRecDb.wn 0) ∧
    wnsOf (dbread tenRecDb 11 19 0) = [20] ∧
    ¬((11:ℤ) ≤ 20 ∧ (20:ℤ) ≤ 19) := by decide

/-- Claim C5.  When the requested window does not overlap the database
range (`iwn > DBfwn or fwn < DBiwn`), `dbread` warns (recoverable, no
error path exists in the function) and returns no arrays, so the database
contributes zero records. -/
theorem dbread_nonoverlap_warning {α : Type} [LinearOrder α]
    (db : RepackDb α) (a b : α) (verb : ℤ)
    (h : db.wn (db.n - 1) < a ∨ b < db.wn 0) :
    dbread db a b verb =
      { arrays := none, warned := true, checkpoints := [] } := by
  simp only [dbread]
  rw [if_pos h]

/-- Claim C5 witness: the ten-record database queried with the disjoint
window `[200, 300]`. -/
theorem dbread_nonoverlap_warning_witness :
    dbread tenRecDb 200 300 0 =
      { arrays := none, warned := true, checkpoints := [] } :=
  dbread_nonoverlap_warning tenRecDb 200 300 0 (by decide)

/-- Claim C8.  The progress notifications of `repack.dbread` are a pure
side effect: the verbosity argument is not consulted by the read, so two
runs with different verbosity settings return identical
(wavenumber, gf, elow, isotope-index) arrays, and even identical
checkpoint schedules. -/
theorem dbread_verbosity_independent {α : Type} [LinearOrder α]
    (db : RepackDb α) (a b : α) (v v' : ℤ) :
    (dbread db a b v).arrays = (dbread db a b v').arrays ∧
    (dbread db a b v).checkpoints = (dbread db a b v').checkpoints :=
  ⟨rfl, rfl⟩

/-! ## Properties of the Plez VO reader: claim C10 -/

/-- Claim C10.  For a Plez VO database file sorted ascending by wavelength
(equivalently, strictly decreasing in wavenumber), `voplez.dbread` reads
the located records in decreasing file-index order (output entry `i` is
record `istop - i`), so the returned wavenumber array is strictly
ascending even though the file is descending in wavenumber, and the
returned isotope-index array is identically zero. -/
theorem voplez_dbread_ascending (f : VoFile) (iwn fwn : ℚ)
    (hdesc : ∀ i j, i < j → j ≤ f.n - 1 → f.wn j < f.wn i) :
    ∀ istart istop,
      istart = binsearch (voplez_readwave f) (1 / (fwn * pc_um)) 0
        (f.n - 1) false →
      istop = binsearch (voplez_readwave f) (1 / (iwn * pc_um)) istart
        (f.n - 1) true →
      (voplez_dbread f iwn fwn).1 =
        (List.range (istop - istart + 1)).map (fun i => f.wn (istop - i)) ∧
      List.Pairwise (· < ·) (voplez_dbread f iwn fwn).1 ∧
      ∀ z ∈ (voplez_dbread f iwn fwn).2.2.2, z = 0 := by
  intro istart istop h1 h2
  subst h1
  subst h2
  set istart := binsearch (voplez_readwave f) (1 / (fwn * pc_um)) 0
    (f.n - 1) false with hista
  set istop := binsearch (voplez_readwave f) (1 / (iwn * pc_um)) istart
    (f.n - 1) true with histo
  have hs := binsearch_bounds (voplez_readwave f) (1 / (fwn * pc_um)) 0
    (f.n - 1) false (Nat.zero_le _)
  rw [← hista] at hs
  have ht := binsearch_bounds (voplez_readwave f) (1 / (iwn * pc_um)) istart
    (f.n - 1) true hs.2
  rw [← histo] at ht
  have heq : (voplez_dbread f iwn fwn).1 =
      (List.range (istop - istart + 1)).map (fun i => f.wn (istop - i)) := by
    simp only [voplez_dbread]
  refine ⟨heq, ?_, ?_⟩
  · rw [heq]
    rw [List.pairwise_map]
    refine List.Pairwise.imp_of_mem ?_ (List.pairwise_lt_range _)
    intro a b ha hb hab
    rw [List.mem_range] at ha hb
    have hble : b ≤ istop - istart := by omega
    exact hdesc (istop - b) (istop - a) (by omega) (by omega)
  · intro z hz
    simp only [voplez_dbread, List.mem_map] at hz
    obtain ⟨k, -, hk⟩ := hz
    exact hk.symm

/-- Claim C10 witness: the theorem instantiated on the five-record
descending example file with the window `[30, 60]` cm-1, the located
record interval being the one the two searches of the call return. -/
theorem voplez_dbread_ascending_witness :
    (voplez_dbread voExample 30 60).1 =
      (List.range (binsearch (voplez_readwave voExample) (1 / (30 * pc_um))
          (binsearch (voplez_readwave voExample) (1 / (60 * pc_um)) 0
            (voExample.n - 1) false) (voExample.n - 1) true -
        binsearch (voplez_readwave voExample) (1 / (60 * pc_um)) 0
          (voExample.n - 1) false + 1)).map
        (fun i => voExample.wn
          (binsearch (voplez_readwave voExample) (1 / (30 * pc_um))
            (binsearch (voplez_readwave voExample) (1 / (60 * pc_um)) 0
              (voExample.n - 1) false) (voExample.n - 1) true - i)) ∧
    List.Pairwise (· < ·) (voplez_dbread voExample 30 60).1 ∧
    ∀ z ∈ (voplez_dbread voExample 30 60).2.2.2, z = 0 :=
  voplez_dbread_ascending voExample 30 60
    (fun i j hij hj => by
      simp only [voExample]
      have : (i : ℚ) < j := Nat.cast_lt.mpr hij
      linarith)
    (binsearch (voplez_readwave voExample) (1 / (60 * pc_um)) 0
      (voExample.n - 1) false)
    (binsearch (voplez_readwave voExample) (1 / (30 * pc_um))
      (binsearch (voplez_readwave voExample) (1 / (60 * pc_um)) 0
        (voExample.n - 1) false) (voExample.n - 1) true)
    rfl rfl

/-! ## Properties of the parallel grid build: claims C3 and C4 -/

/-- Cell coordinates determine the cell: for an in-range layer index,
`(itemp, ilayer) = (c / nlayers, c % nlayers)` holds exactly for the cell
`c = itemp * nlayers + ilayer`. -/
theorem cell_coords {nlayers t l c : Nat} (hl : l < nlayers) :
    (t = itempOf nlayers c ∧ l = ilayerOf nlayers c) ↔ t * nlayers + l = c := by
  simp only [itempOf, ilayerOf]
  constructor
  · rintro ⟨rfl, rfl⟩
    rw [mul_comm]
    exact Nat.div_add_mod c nlayers
  · rintro rfl
    have hn : 0 < nlayers := by omega
    have hdiv : (nlayers * t + l) / nlayers = t + l / nlayers :=
      Nat.mul_add_div hn t l
    have hmod : (nlayers * t + l) % nlayers = l % nlayers :=
      Nat.mul_add_mod nlayers t l
    have h0 : l / nlayers = 0 := Nat.div_eq_of_lt hl
    have h1 : l % nlayers = l := Nat.mod_eq_of_lt hl
    rw [mul_comm]
    omega

/-- Claim C3.  The static assignment maps cell `c` to worker `c mod ncpu`;
for every `ncpu ≥ 1` the assigned index sets of two distinct workers are
disjoint, every cell below `ntemp * nlayers` is covered by the worker
`c mod ncpu < ncpu`, and the output-table regions written by two distinct
workers never intersect. -/
theorem opacity_grid_partition (ncpu ntemp nlayers : Nat) (hcpu : 1 ≤ ncpu) :
    (∀ i j, i ≠ j → ∀ c, c ∈ assignedCells ncpu ntemp nlayers i →
      c ∉ assignedCells ncpu ntemp nlayers j) ∧
    (∀ c, c < ntemp * nlayers →
      c ∈ assignedCells ncpu ntemp nlayers (cellWorker ncpu c) ∧
      cellWorker ncpu c < ncpu) ∧
    (∀ i j, i ≠ j → ∀ p, p ∈ writeRegions nlayers (assignedCells ncpu ntemp nlayers i) →
      p ∉ writeRegions nlayers (assignedCells ncpu ntemp nlayers j)) := by
  have hmem : ∀ i c, c ∈ assignedCells ncpu ntemp nlayers i ↔
      c < ntemp * nlayers ∧ c % ncpu = i := by
    intro i c
    simp [assignedCells, cellWorker, List.mem_filter, List.mem_range]
  refine ⟨?_, ?_, ?_⟩
  · intro i j hij c hci hcj
    rw [hmem] at hci hcj
    exact hij (hci.2 ▸ hcj.2)
  · intro c hc
    exact ⟨(hmem _ c).mpr ⟨hc, rfl⟩, Nat.mod_lt c hcpu⟩
  · intro i j hij p hpi hpj
    simp only [writeRegions, List.mem_map] at hpi hpj
    obtain ⟨c, hci, hpc⟩ := hpi
    obtain ⟨d, hdj, hpd⟩ := hpj
    rw [hmem] at hci hdj
    have hpair : (itempOf nlayers c, ilayerOf nlayers c) =
        (itempOf nlayers d, ilayerOf nlayers d) := hpc.trans hpd.symm
    have h1 : c / nlayers = d / nlayers := congrArg Prod.fst hpair
    have h2 : c % nlayers = d % nlayers := congrArg Prod.snd hpair
    have hcd : c = d := by
      have hc := Nat.div_add_mod c nlayers
      have hd := Nat.div_add_mod d nlayers
      rw [h1, h2] at hc
      omega
    exact hij (hci.2 ▸ (hcd ▸ hdj.2))

/-- Claim C3 witness: the partition statement for four workers on a
3-by-5 grid. -/
theorem opacity_grid_partition_witness :
    (∀ i j, i ≠ j → ∀ c, c ∈ assignedCells 4 3 5 i →
      c ∉ assignedCells 4 3 5 j) ∧
    (∀ c, c < 3 * 5 → c ∈ assignedCells 4 3 5 (cellWorker 4 c) ∧
      cellWorker 4 c < 4) ∧
    (∀ i j, i ≠ j → ∀ p, p ∈ writeRegions 5 (assignedCells 4 3 5 i) →
      p ∉ writeRegions 5 (assignedCells 4 3 5 j)) :=
  opacity_grid_partition 4 3 5 (by decide)

/-- A worker's pass leaves a table entry `(t, l)` (with `l < nlayers`)
equal to `f t l` if the cell `t * nlayers + l` is among its cells, and
untouched otherwise. -/
theorem runWorker_at {β : Type} (f : Nat → Nat → β) (nlayers : Nat)
    (t l : Nat) (hl : l < nlayers) :
    ∀ cells T, runWorker f nlayers T cells t l =
      if t * nlayers + l ∈ cells then f t l else T t l := by
  intro cells
  induction cells with
  | nil => intro T; simp [runWorker]
  | cons c cs ih =>
    intro T
    have hcc : (t = itempOf nlayers c ∧ l = ilayerOf nlayers c) ↔
        t * nlayers + l = c := cell_coords hl
    by_cases hc : t * nlayers + l = c
    · by_cases hcs : t * nlayers + l ∈ cs
      · simp only [runWorker] at ih ⊢
        rw [List.foldl_cons, ih, if_pos hcs, if_pos (List.mem_cons.mpr (Or.inr hcs))]
      · simp only [runWorker] at ih ⊢
        rw [List.foldl_cons, ih, if_neg hcs, if_pos (List.mem_cons.mpr (Or.inl hc)),
          applyCell, if_pos (hcc.mpr hc)]
        obtain ⟨he1, he2⟩ := hcc.mpr hc
        rw [← he1, ← he2]
    · simp only [runWorker] at ih ⊢
      rw [List.foldl_cons, ih]
      by_cases hcs : t * nlayers + l ∈ cs
      · rw [if_pos hcs, if_pos (List.mem_cons.mpr (Or.inr hcs))]
      · rw [if_neg hcs, if_neg (by
          intro hmem
          rcases List.mem_cons.mp hmem with h | h
          · exact hc h
          · exact hcs h), applyCell, if_neg (by
          intro hand
          exact hc (hcc.mp hand))]

/-- After the workers covering cell `t * nlayers + l` have run, the table
holds `f t l` there; workers not covering it leave it unchanged. -/
theorem buildGrid_at {β : Type} (f : Nat → Nat → β) (ntemp nlayers ncpu : Nat)
    (t l : Nat) (ht : t < ntemp) (hl : l < nlayers) (hcpu : 1 ≤ ncpu) :
    ∀ T0, buildGrid f ntemp nlayers ncpu T0 t l = f t l := by
  have hcell : t * nlayers + l < ntemp * nlayers := by
    calc t * nlayers + l < t * nlayers + nlayers := by omega
    _ = (t + 1) * nlayers := by ring
    _ ≤ ntemp * nlayers := Nat.mul_le_mul_right _ (by omega)
  have hmem : ∀ i, t * nlayers + l ∈ assignedCells ncpu ntemp nlayers i ↔
      (t * nlayers + l) % ncpu = i := by
    intro i
    simp [assignedCells, cellWorker, List.mem_filter, List.mem_range, hcell]
  have hnotin : ∀ i, i ≠ (t * nlayers + l) % ncpu →
      ∀ T, runWorker f nlayers T (assignedCells ncpu ntemp nlayers i) t l = T t l := by
    intro i hi T
    rw [runWorker_at f nlayers t l hl, if_neg (by
      intro hm
      exact hi ((hmem i).mp hm).symm)]
  have hin : ∀ T, runWorker f nlayers T
      (assignedCells ncpu ntemp nlayers ((t * nlayers + l) % ncpu)) t l = f t l := by
    intro T
    rw [runWorker_at f nlayers t l hl, if_pos ((hmem _).mpr rfl)]
  have key : ∀ ws : List Nat, ∀ T : Nat → Nat → β,
      (((t * nlayers + l) % ncpu ∈ ws →
        (ws.foldl (fun T i => runWorker f nlayers T
          (assignedCells ncpu ntemp nlayers i)) T) t l = f t l) ∧
       ((t * nlayers + l) % ncpu ∉ ws →
        (ws.foldl (fun T i => runWorker f nlayers T
          (assignedCells ncpu ntemp nlayers i)) T) t l = T t l)) := by
    intro ws
    induction ws with
    | nil => intro T; exact ⟨fun h => absurd h (List.not_mem_nil _), fun _ => rfl⟩
    | cons j js ih =>
      intro T
      rw [List.foldl_cons]
      constructor
      · intro hmem2
        by_cases hj : j = (t * nlayers + l) % ncpu
        · by_cases hjs : (t * nlayers + l) % ncpu ∈ js
          · exact (ih _).1 hjs
          · rw [(ih _).2 hjs, hj, hin]
        · rcases List.mem_cons.mp hmem2 with h | h
          · exact absurd h.symm hj
          · exact (ih _).1 h
      · intro hmem2
        have hj : j ≠ (t * nlayers + l) % ncpu := by
          intro he
          exact hmem2 (List.mem_cons.mpr (Or.inl he.symm))
        have hjs : (t * nlayers + l) % ncpu ∉ js := by
          intro hm
          exact hmem2 (List.mem_cons.mpr (Or.inr hm))
        rw [(ih _).2 hjs, hnotin j hj]
  intro T0
  exact (key (List.range ncpu) T0).1
    (List.mem_range.mpr (Nat.mod_lt _ hcpu))

/-- Claim C4.  An opacity grid built with one worker and one built with
four workers agree cell-by-cell: every in-range cell of the shared table
holds the kernel value at that cell's coordinates, independent of the
worker count, of the assignment and of the initial buffer contents. -/
theorem opacity_grid_cpu_independent {β : Type} (f : Nat → Nat → β)
    (ntemp nlayers : Nat) (T0 T0' : Nat → Nat → β) (t l : Nat)
    (ht : t < ntemp) (hl : l < nlayers) :
    buildGrid f ntemp nlayers 1 T0 t l = buildGrid f ntemp nlayers 4 T0' t l ∧
    buildGrid f ntemp nlayers 1 T0 t l = f t l ∧
    (∀ ncpu, 1 ≤ ncpu → buildGrid f ntemp nlayers ncpu T0 t l = f t l) := by
  have h1 := buildGrid_at f ntemp nlayers 1 t l ht hl (by omega) T0
  have h4 := buildGrid_at f ntemp nlayers 4 t l ht hl (by omega) T0'
  exact ⟨h1.trans h4.symm, h1,
    fun ncpu hncpu => buildGrid_at f ntemp nlayers ncpu t l ht hl hncpu T0⟩

/-- Claim C4 witness: determinism of the build on a 2-by-3 grid at cell
(1, 2) with two different initial buffers over the integers. -/
theorem opacity_grid_cpu_independent_witness :
    buildGrid (fun t l => 10 * t + l) 2 3 1 (fun _ _ => (0:Nat)) 1 2 =
      buildGrid (fun t l => 10 * t + l) 2 3 4 (fun _ _ => (7:Nat)) 1 2 ∧
    buildGrid (fun t l => 10 * t + l) 2 3 1 (fun _ _ => (0:Nat)) 1 2 =
      10 * 1 + 2 ∧
    (∀ ncpu, 1 ≤ ncpu →
      buildGrid (fun t l => 10 * t + l) 2 3 ncpu (fun _ _ => (0:Nat)) 1 2 =
        10 * 1 + 2) :=
  opacity_grid_cpu_independent (fun t l => 10 * t + l) 2 3
    (fun _ _ => (0:Nat)) (fun _ _ => (7:Nat)) 1 2 (by decide) (by decide)

/-! ## Properties of the partition-function sources: claim C6 -/

/-- Claim C6.  The polynomial source evaluates
`log PF = Σ_{k=0..5} c_k (ln T)^k` and exponentiates: at the grid origin
`T = 1000` the value equals `exp (Σ_k c_k (ln 1000)^k)` exactly, hence in
particular to within 1e-9 relative error; the polynomial source is
tabulated on the fixed grid 1000, 1050, ..., 7000 K (121 points, 50 K
steps), and the built-in physics source on 70, 80, ..., 3000 K
(294 points, 10 K steps). -/
theorem getpf_poly_correct (c : Fin 6 → ℝ) :
    getpf_poly c 1000 =
      Real.exp (∑ k : Fin 6, c k * Real.log 1000 ^ (k : ℕ)) ∧
    |getpf_poly c 1000 -
        Real.exp (∑ k : Fin 6, c k * Real.log 1000 ^ (k : ℕ))| ≤
      1e-9 * |Real.exp (∑ k : Fin 6, c k * Real.log 1000 ^ (k : ℕ))| ∧
    polyTempGrid = (List.range 121).map (fun i : Nat => 1000 + 50 * (i:ℚ)) ∧
    polyTempGrid.length = 121 ∧
    (1000:ℚ) + 50 * 0 = 1000 ∧ (1000:ℚ) + 50 * 120 = 7000 ∧
    ctipsTempGrid = (List.range 294).map (fun i : Nat => 70 + 10 * (i:ℚ)) ∧
    ctipsTempGrid.length = 294 ∧
    (70:ℚ) + 10 * 0 = 70 ∧ (70:ℚ) + 10 * 293 = 3000 := by
  have hpoly : getpf_poly c 1000 =
      Real.exp (∑ k : Fin 6, c k * Real.log 1000 ^ (k : ℕ)) := by
    have e0 : ((0 : Fin 6) : ℕ) = 0 := rfl
    have e1 : ((1 : Fin 6) : ℕ) = 1 := rfl
    have e2 : ((2 : Fin 6) : ℕ) = 2 := rfl
    have e3 : ((3 : Fin 6) : ℕ) = 3 := rfl
    have e4 : ((4 : Fin 6) : ℕ) = 4 := rfl
    have e5 : ((5 : Fin 6) : ℕ) = 5 := rfl
    rw [getpf_poly, Fin.sum_univ_six, e0, e1, e2, e3, e4, e5]
    congr 1
    simp only [pow_zero, pow_one]
    ring
  have h121 : Nat.ceil (((7001:ℚ) - 1000) / 50) = 121 := by
    rw [Nat.ceil_eq_iff (by norm_num)]
    norm_num
  have h294 : Nat.ceil (((3000.1:ℚ) - 70) / 10) = 294 := by
    rw [Nat.ceil_eq_iff (by norm_num)]
    norm_num
  refine ⟨hpoly, ?_, ?_, ?_, by norm_num, by norm_num, ?_, ?_, by norm_num,
    by norm_num⟩
  · rw [hpoly, sub_self, abs_zero]
    positivity
  · rw [polyTempGrid, arange, h121]
  · simp only [polyTempGrid, arange, h121, List.length_map, List.length_range]
  · rw [ctipsTempGrid, arange, h294]
  · simp only [ctipsTempGrid, arange, h294, List.length_map, List.length_range]

/-! ## Properties of the validation and temperature grid: claims C7 and C9 -/

/-- Claim C7.  `compute_opacity` fails fatally before any grid allocation
whenever a required parameter is missing or the requested temperature
range exceeds the available line-list coverage: validation succeeds
exactly when the output file, tmin, tmax, tstep and the input TLI files
are all set, at most one output file is given, and `lblTmin ≤ tmin` and
`tmax ≤ lblTmax`; any validation error propagates out of
`compute_opacity` with no grid built, and requesting tmin = 50 K against
coverage starting at 70 K aborts with the error naming tmin and both
values. -/
theorem compute_opacity_validation (cfg : ExConfig) (lblTmin lblTmax : ℚ) :
    (∀ e, validateOpacity cfg lblTmin lblTmax = .error e →
      compute_opacity cfg lblTmin lblTmax = .error e) ∧
    (okB (validateOpacity cfg lblTmin lblTmax) = true ↔
      (∃ ef, cfg.extfile = some ef ∧ ef.length ≤ 1) ∧
      (∃ t1, cfg.tmin = some t1 ∧ lblTmin ≤ t1) ∧
      (∃ t2, cfg.tmax = some t2 ∧ t2 ≤ lblTmax) ∧
      cfg.tstep ≠ none ∧ cfg.tlifile ≠ none) ∧
    validateOpacity ⟨some [""], some 50, some 3000, some 10, some [""]⟩ 70 3000 =
      .error (.tminBelow 50 70) := by
  refine ⟨?_, ?_, by rfl⟩
  · intro e he
    simp only [compute_opacity, he]
  · rcases cfg with ⟨ef, t1, t2, st, tl⟩
    cases ef <;> cases t1 <;> cases t2 <;> cases st <;> cases tl <;>
      simp only [validateOpacity, okB] <;> simp <;> split_ifs <;>
      simp_all

/-- Claim C7 witness: requesting tmin = 50 K against 70-3000 K coverage
aborts `compute_opacity` with the error naming tmin, the requested 50 K
and the available 70 K, before any grid is built. -/
theorem compute_opacity_validation_witness :
    compute_opacity ⟨some [""], some 50, some 3000, some 10, some [""]⟩ 70 3000 =
      .error (.tminBelow 50 70) :=
  (compute_opacity_validation
      ⟨some [""], some 50, some 3000, some 10, some [""]⟩ 70 3000).1 _
    (compute_opacity_validation
      ⟨some [""], some 50, some 3000, some 10, some [""]⟩ 70 3000).2.2

/-- Claim C9 (amended).  With a positive step and an ordered pair
`tmin ≤ tmax` that passed validation (`lblTmin ≤ tmin`, `tmax ≤ lblTmax`),
every temperature of the constructed grid of
`ntemp = int((tmax-tmin)/tstep) + 1` points `tmin + i*tstep` lies in
`[tmin, tmax]`, hence inside the validated coverage
`[lblTmin, lblTmax]`, so the partition-function interpolation of the
build is never evaluated outside it; the last grid point may fall
strictly below tmax when tstep does not divide tmax - tmin, as for
bounds 70..100 with step 20, whose grid is [70, 90]. -/
theorem temp_grid_within_validated_range (tmin tmax tstep lblTmin lblTmax : ℚ)
    (hstep : 0 < tstep) (hord : tmin ≤ tmax)
    (hv1 : lblTmin ≤ tmin) (hv2 : tmax ≤ lblTmax) :
    (∀ T ∈ tempGrid tmin tstep (ntempOf tmin tmax tstep),
      tmin ≤ T ∧ T ≤ tmax ∧ lblTmin ≤ T ∧ T ≤ lblTmax) ∧
    tempGrid 70 20 (ntempOf 70 100 20) = [70, 90] ∧ (90:ℚ) < 100 := by
  have hgrid2 : ntempOf 70 100 20 = 2 := by
    rw [ntempOf, pyInt, if_neg (by norm_num)]
    norm_num
    rfl
  refine ⟨?_, ?_, by norm_num⟩
  · intro T hT
    simp only [tempGrid, List.mem_map, List.mem_range] at hT
    obtain ⟨i, hi, rfl⟩ := hT
    have hq : (0:ℚ) ≤ (tmax - tmin) / tstep :=
      div_nonneg (by linarith) (le_of_lt hstep)
    have hpy : pyInt ((tmax - tmin) / tstep) = Int.floor ((tmax - tmin) / tstep) := by
      rw [pyInt, if_neg (not_lt.mpr hq)]
    have hfl0 : 0 ≤ Int.floor ((tmax - tmin) / tstep) := Int.floor_nonneg.mpr hq
    rw [ntempOf, hpy] at hi
    have hiz : (i : ℤ) ≤ Int.floor ((tmax - tmin) / tstep) := by omega
    have hiq : (i : ℚ) ≤ (tmax - tmin) / tstep := by
      calc (i : ℚ) = ((i : ℤ) : ℚ) := by push_cast; ring
      _ ≤ ((Int.floor ((tmax - tmin) / tstep) : ℤ) : ℚ) := by exact_mod_cast hiz
      _ ≤ (tmax - tmin) / tstep := Int.floor_le _
    have hmul : (i : ℚ) * tstep ≤ tmax - tmin := by
      have h1 := mul_le_mul_of_nonneg_right hiq (le_of_lt hstep)
      rwa [div_mul_cancel₀ _ (ne_of_gt hstep)] at h1
    have h0 : (0:ℚ) ≤ (i : ℚ) * tstep :=
      mul_nonneg (Nat.cast_nonneg i) (le_of_lt hstep)
    refine ⟨by linarith, by linarith, by linarith, by linarith⟩
  · rw [hgrid2]
    norm_num [tempGrid, List.range_succ]

/-- Claim C9 witness: the amended statement on bounds 70..100 K with step
20 K against coverage 70-3000 K. -/
theorem temp_grid_within_validated_range_witness :
    (∀ T ∈ tempGrid 70 20 (ntempOf 70 100 20),
      (70:ℚ) ≤ T ∧ T ≤ 100 ∧ (70:ℚ) ≤ T ∧ T ≤ 3000) ∧
    tempGrid 70 20 (ntempOf 70 100 20) = [70, 90] ∧ (90:ℚ) < 100 :=
  temp_grid_within_validated_range 70 100 20 70 3000 (by norm_num)
    (by norm_num) (by norm_num) (by norm_num)

/-- Claim C9 counterexample to the claim as stated: tmin = 100, tmax = 80
with step 50 passes the pre-build validation against coverage 70-3000 K
(the validation never compares tmin with tmax), yet the constructed grid
is [100], whose only temperature violates `T ≤ tmax`. -/
theorem temp_grid_counterexample :
    validateOpacity ⟨some [""], some 100, some 80, some 50, some [""]⟩ 70 3000 =
      .ok (100, 80, 50) ∧
    tempGrid 100 50 (ntempOf 100 80 50) = [100] ∧
    ¬((100:ℚ) ≤ 80) := by
  have hn : ntempOf 100 80 50 = 1 := by
    rw [ntempOf, pyInt, if_pos (by norm_num)]
    norm_num
  refine ⟨by rfl, ?_, by norm_num⟩
  rw [hn]
  norm_num [tempGrid, List.range_succ]
